import Mathlib

set_option autoImplicit false

/-!
# Verification of the `HashMap` TypeScript library

A shallow embedding of `src/HashMap.ts` and `src/Entry.ts`: a bucketed
separate-chaining hash map with power-of-two bucket counts, a load-factor
threshold of 0.75, pluggable hashing/equality, and an entry handle.

Modelling conventions:
* JavaScript numbers that hold entry counts, bucket counts and capacities are
  small integers; arithmetic on them is exact in IEEE doubles, so they are
  modelled as `Nat` with exact rational comparisons
  (`count / len > 0.75` becomes `4 * count > 3 * len`,
  `Math.ceil(x / 0.75)` becomes `(4 * x + 2) / 3`,
  `Math.ceil(x * 0.75)` becomes `(3 * x + 3) / 4`,
  `Math.floor(len * 0.75)` becomes `3 * len / 4`).
* 32-bit signed wrap-around (`| 0`, `<<`) is explicit `% 2 ^ 32` arithmetic.
* The mutable `HashMap` object is a value; each mutating method returns the
  updated value.  Generators are modelled by the full sequence they yield
  together with the state they leave behind.
-/

namespace HashMapSpec

/-- JS `x | 0`: wrap an integer to the signed 32-bit range. -/
def toInt32 (x : Int) : Int := (x + 2 ^ 31) % 2 ^ 32 - 2 ^ 31

/-- The UTF-16 code units of a string (`charCodeAt`), for the strings that
appear here (pure ASCII) these are the character code points. -/
def strCodes (s : String) : List Nat := s.data.map Char.toNat

/-- Loop body accumulation of `hashString`:
`hash = ((hash << 5) - hash + input.charCodeAt(i)) | 0`. -/
def hashStringAux : Int → List Nat → Int
  | h, [] => h
  | h, c :: cs => hashStringAux (toInt32 (toInt32 (h * 2 ^ 5) - h + c)) cs

/-- Function `hashString` from `HashMap.ts`: polynomial rolling hash with 32-bit
signed wrap-around. -/
def hashString (s : String) : Int := hashStringAux 0 (strCodes s)

/-- Number of binary digits of `n` (`0` for `n = 0`), fuel-driven so the
kernel can evaluate it.  `64` units of fuel are always enough here because
every argument is `< 2 ^ 32`. -/
def bitLenAux : Nat → Nat → Nat
  | 0, _ => 0
  | fuel + 1, n => if n = 0 then 0 else bitLenAux fuel (n / 2) + 1

/-- JS `Math.clz32(m)` for a nonnegative integer argument: count of leading
zeros of `ToUint32(m)`. -/
def jsClz32 (m : Nat) : Nat := 32 - bitLenAux 64 (m % 2 ^ 32)

/-- Expression `1 << (32 - Math.clz32(Math.max(newBucketCount, 1) - 1))` from
`HashMap.resize`: round up to the next power of two, minimum 1.  The shift
count is masked by 32 exactly as JS `<<` does. -/
def pow2ceil (newBucketCount : Nat) : Nat :=
  2 ^ ((32 - jsClz32 (max newBucketCount 1 - 1)) % 32)

/-- Expression `Math.abs(hash) & (len - 1)` from `HashMap.getBucket` / `HashMap.resize`:
the bucket index of a hash value in a store of `len` buckets. -/
def bucketIdx (hash : Int) (len : Nat) : Nat := hash.natAbs &&& (len - 1)

/-- The `Hasher<K>` capability pair. -/
structure Hasher (K : Type) where
  hash : K → Int
  equals : K → K → Bool

variable {K T : Type}

/-- The implicit contract a hasher must satisfy for lookups to behave
(§3 of the spec: `equals a b → hash a = hash b`; `equals` an equivalence). -/
structure LawfulHasher (H : Hasher K) : Prop where
  refl : ∀ k, H.equals k k = true
  symm : ∀ a b, H.equals a b = H.equals b a
  trans : ∀ a b c, H.equals a b = true → H.equals b c = true → H.equals a c = true
  hash_eq : ∀ a b, H.equals a b = true → H.hash a = H.hash b

/-- A bucket: the ordered pairs chained in one slot (`Bucket<K, T>`). -/
abbrev Bucket (K T : Type) := List (K × T)

/-- The `HashMap` state: `#buckets`, `#count` and the `#hasher`. -/
structure HashMap (K T : Type) where
  buckets : List (Bucket K T)
  count : Nat
  hasher : Hasher K

/-- The linear scan of `HashMap.get`: first pair whose key `equals` the
searched key. -/
def bucketGet (eq : K → K → Bool) (key : K) : Bucket K T → Option T
  | [] => none
  | (k, v) :: rest => if eq key k then some v else bucketGet eq key rest

/-- The linear scan of `HashMap.getKeyValue`. -/
def bucketGetKV (eq : K → K → Bool) (key : K) : Bucket K T → Option (K × T)
  | [] => none
  | (k, v) :: rest => if eq key k then some (k, v) else bucketGetKV eq key rest

/-- The loop of `HashMap.set` on a single bucket: overwrite the value of the
first pair with an equal key in place (keeping the stored key), else append
`(key, value)`.  The boolean reports whether the bucket grew. -/
def bucketSet (eq : K → K → Bool) (key : K) (value : T) : Bucket K T → Bucket K T × Bool
  | [] => ([(key, value)], true)
  | (k, v) :: rest =>
    if eq key k then ((k, value) :: rest, false)
    else
      let r := bucketSet eq key value rest
      ((k, v) :: r.1, r.2)

/-- The loop of `HashMap.remove` on a single bucket: splice out the first
pair with an equal key and report its value. -/
def bucketRemove (eq : K → K → Bool) (key : K) : Bucket K T → Bucket K T × Option T
  | [] => ([], none)
  | (k, v) :: rest =>
    if eq key k then (rest, some v)
    else
      let r := bucketRemove eq key rest
      ((k, v) :: r.1, r.2)

namespace HashMap

/-- Constructor `new HashMap(hasher)`: eight empty buckets, count 0. -/
def empty (hasher : Hasher K) : HashMap K T :=
  ⟨List.replicate 8 [], 0, hasher⟩

/-- Method `size()`. -/
def size (m : HashMap K T) : Nat := m.count

/-- Method `isEmpty()`. -/
def isEmpty (m : HashMap K T) : Bool := m.count == 0

/-- Method `buckets()`: the literal length of the bucket store. -/
def numBuckets (m : HashMap K T) : Nat := m.buckets.length

/-- Method `capacity()`: `Math.floor(this.#buckets.length * HashMap.loadThreshold)`. -/
def capacity (m : HashMap K T) : Nat := 3 * m.buckets.length / 4

/-- The index computed inside `getBucket`. -/
def bucketIndexOf (m : HashMap K T) (key : K) : Nat :=
  bucketIdx (m.hasher.hash key) m.buckets.length

/-- Method `getBucket(key)`: the bucket that would contain `key`. -/
def getBucket (m : HashMap K T) (key : K) : Bucket K T :=
  m.buckets.getD (m.bucketIndexOf key) []

/-- Method `get(key)`. -/
def get (m : HashMap K T) (key : K) : Option T :=
  bucketGet m.hasher.equals key (m.getBucket key)

/-- Method `getKeyValue(key)`. -/
def getKeyValue (m : HashMap K T) (key : K) : Option (K × T) :=
  bucketGetKV m.hasher.equals key (m.getBucket key)

/-- Method `has(key)`. -/
def has (m : HashMap K T) (key : K) : Bool := (m.get key).isSome

/-- One step of the redistribution loop in `resize`: push a pair onto the
end of its new bucket, where `final` is the new bucket count. -/
def pushPair (hash : K → Int) (final : Nat) (bs : List (Bucket K T)) (p : K × T) :
    List (Bucket K T) :=
  bs.set (bucketIdx (hash p.1) final) (bs.getD (bucketIdx (hash p.1) final) [] ++ [p])

/-- Method `resize(newBucketCount)`: round the target up to a power of two, allocate
fresh empty buckets, rehash every pair in store order into its new bucket. -/
def resize (m : HashMap K T) (newBucketCount : Nat) : HashMap K T :=
  let final := pow2ceil newBucketCount
  { m with
    buckets := m.buckets.flatten.foldl (pushPair m.hasher.hash final)
      (List.replicate final []) }

/-- Method `set(key, value)`: overwrite in place if the key is present (no count
change, no resize check); else append, increment the count, and double the
bucket count if the load threshold is now exceeded
(`this.#count / this.#buckets.length > 0.75`, i.e. `4 * count > 3 * len`). -/
def set (m : HashMap K T) (key : K) (value : T) : HashMap K T :=
  let i := m.bucketIndexOf key
  let r := bucketSet m.hasher.equals key value (m.getBucket key)
  if r.2 then
    let grown : HashMap K T := { m with buckets := m.buckets.set i r.1, count := m.count + 1 }
    if 4 * grown.count > 3 * grown.buckets.length then
      grown.resize (2 * grown.buckets.length)
    else grown
  else { m with buckets := m.buckets.set i r.1 }

/-- Method `remove(key)`: splice the first equal pair out of its bucket, decrement
the count and return the removed value; otherwise leave the map unchanged and
return `none`.  No resize ever happens here. -/
def remove (m : HashMap K T) (key : K) : HashMap K T × Option T :=
  let i := m.bucketIndexOf key
  let r := bucketRemove m.hasher.equals key (m.getBucket key)
  match r.2 with
  | some v => ({ m with buckets := m.buckets.set i r.1, count := m.count - 1 }, some v)
  | none => (m, none)

/-- Static method `withCapacity(capacity)`: a fresh map resized to
`Math.ceil(capacity * HashMap.loadThreshold)` buckets. -/
def withCapacity (hasher : Hasher K) (capacity : Nat) : HashMap K T :=
  (HashMap.empty hasher).resize ((3 * capacity + 3) / 4)

/-- Static method `HashMap.from(fromArray)`: pre-size to the input length, insert in order. -/
def fromList (hasher : Hasher K) (l : List (K × T)) : HashMap K T :=
  l.foldl (fun m p => m.set p.1 p.2) (HashMap.withCapacity hasher l.length)

/-- Iterator method `[Symbol.iterator]()`: all pairs, in bucket order then pair order. -/
def toList (m : HashMap K T) : List (K × T) := m.buckets.flatten

/-- Method `clear()`: same number of buckets, all empty, count 0. -/
def clear (m : HashMap K T) : HashMap K T :=
  { m with buckets := List.replicate m.buckets.length [], count := 0 }

/-- Method `drain()`: the generator is modelled by the pair of the full sequence it
yields (a snapshot of the buckets at the call) and the cleared map it leaves
behind once exhausted. -/
def drain (m : HashMap K T) : List (K × T) × HashMap K T :=
  (m.toList, m.clear)

/-- Method `reserve(newCount)`: grow (never shrink) to hold `newCount` more entries;
`Math.ceil((newCount + count) / 0.75)` is `(4 * (newCount + count) + 2) / 3`. -/
def reserve (m : HashMap K T) (newCount : Nat) : HashMap K T :=
  let newBucketCount := (4 * (newCount + m.count) + 2) / 3
  if newBucketCount ≥ m.buckets.length then m.resize newBucketCount else m

/-- Method `shrinkToFit()`: resize to `Math.ceil(count / 0.75)` buckets if that is
below the current bucket count. -/
def shrinkToFit (m : HashMap K T) : HashMap K T :=
  let newBucketCount := (4 * m.count + 2) / 3
  if newBucketCount < m.buckets.length then m.resize newBucketCount else m

/-- Method `shrinkTo(newCapacity)`: resize to `Math.ceil(newCapacity / 0.75)` buckets
when that target is at least the minimum the current contents need and below
the current bucket count; fall back to `shrinkToFit` when the target is below
that minimum; otherwise do nothing. -/
def shrinkTo (m : HashMap K T) (newCapacity : Nat) : HashMap K T :=
  let targetBucketCount := (4 * newCapacity + 2) / 3
  let minBuckets := (4 * m.count + 2) / 3
  if targetBucketCount ≥ minBuckets ∧ targetBucketCount < m.buckets.length then
    m.resize targetBucketCount
  else if targetBucketCount < minBuckets then m.shrinkToFit
  else m

/-- Method `map(fn)`: replace every value in place with `fn(value, key)`. -/
def mapVals (m : HashMap K T) (fn : T → K → T) : HashMap K T :=
  { m with buckets := m.buckets.map (fun b => b.map (fun p => (p.1, fn p.2 p.1))) }

/-- Method `retain(fn)`: keep exactly the pairs on which `fn(value, key)` is true
(the source's back-to-front splice loop performs precisely this filter),
decrementing the count once per removed pair. -/
def retain (m : HashMap K T) (fn : T → K → Bool) : HashMap K T :=
  let newBuckets := m.buckets.map (fun b => b.filter (fun p => fn p.2 p.1))
  { m with buckets := newBuckets,
           count := m.count - (m.buckets.flatten.length - newBuckets.flatten.length) }

end HashMap

/-- The `Entry<K, T>` handle: a `(map, key)` reference pair.  In the
embedding the handle carries the map value it refers to. -/
structure Entry (K T : Type) where
  map : HashMap K T
  key : K

/-- Method `entry(key)`: construct the handle, no lookup performed. -/
def HashMap.entry (m : HashMap K T) (key : K) : Entry K T := ⟨m, key⟩

namespace Entry

/-- Method `Entry.get()`. -/
def get (e : Entry K T) : Option T := e.map.get e.key

/-- Method `Entry.isOccupied()`. -/
def isOccupied (e : Entry K T) : Bool := e.get.isSome

/-- Method `Entry.orInsertWith(fn)`: if the key is absent compute `fn(key)` and set
it, else do nothing; return the handle.  The callback is threaded through an
explicit effect state `σ` so that its invocations are observable: it is the
only place `fn` is applied. -/
def orInsertWith {σ : Type} (e : Entry K T) (fn : K → σ → T × σ) (s : σ) : Entry K T × σ :=
  match e.map.get e.key with
  | some _ => (e, s)
  | none =>
    let r := fn e.key s
    ({ e with map := e.map.set e.key r.1 }, r.2)

end Entry

/-- Instrument a pure callback with an invocation counter, to express
"`fn` is invoked exactly once / never". -/
def countingFn (f : K → T) : K → Nat → T × Nat := fun k c => (f k, c + 1)

/-- JS numbers as far as the default hasher distinguishes them for this
development: `NaN`, `-0`, and integer-valued numbers. -/
inductive JSNum where
  | nan
  | negZero
  | int (n : Int)
deriving DecidableEq

/-- JS `String(x)` on these numbers: `String(NaN) = "NaN"`,
`String(-0) = "0"`, integers print in decimal. -/
def JSNum.toStr : JSNum → String
  | .nan => "NaN"
  | .negZero => "0"
  | .int n => toString n

/-- JS `Object.is` on these numbers: `Object.is(NaN, NaN)` is true,
`Object.is(0, -0)` is false, integers compare by value. -/
def objectIs : JSNum → JSNum → Bool
  | .nan, .nan => true
  | .negZero, .negZero => true
  | .int a, .int b => a == b
  | _, _ => false

/-- Hasher `defaultHasher` instantiated at number keys: hash the template string
`` `${typeof key}: ${key}` `` (so `"number: " ++ String(key)`), compare with
`Object.is`. -/
def defaultHasherNum : Hasher JSNum :=
  ⟨fun k => hashString ("number: " ++ k.toStr), objectIs⟩

/-- A simple lawful hasher on `Nat` keys used to instantiate theorems. -/
def natHasher : Hasher Nat := ⟨fun n => (n : Int), fun a b => a == b⟩

/-- Every pair sits in the bucket its hash selects (§3 invariant (c)). -/
def Placement (m : HashMap K T) : Prop :=
  ∀ i : Nat, ∀ p ∈ m.buckets.getD i [], bucketIdx (m.hasher.hash p.1) m.buckets.length = i

/-- Field `#count` equals the number of stored pairs (§3 invariant (a)). -/
def CountInv (m : HashMap K T) : Prop := m.count = m.toList.length

/-- Replay a sequence of `set` calls. -/
def runSets (m : HashMap K T) (ops : List (K × T)) : HashMap K T :=
  ops.foldl (fun m p => m.set p.1 p.2) m

/-- The most-recently-set value for a key in a sequence of `set` calls, per
the spec's "last-write-wins" wording. -/
def lastVal (eq : K → K → Bool) (key : K) (ops : List (K × T)) : Option T :=
  ops.foldl (fun acc p => if eq key p.1 then some p.2 else acc) none

end HashMapSpec

namespace HashMapSpec

/-! ## Arithmetic and bit-level lemmas -/

set_option maxRecDepth 40000

variable {K T : Type} {α : Type}

theorem bitLenAux_zero (fuel : Nat) : bitLenAux fuel 0 = 0 := by
  cases fuel <;> rfl

theorem bitLenAux_lt (fuel : Nat) :
    ∀ n, n < 2 ^ fuel → n < 2 ^ bitLenAux fuel n := by
  induction fuel with
  | zero => intro n h; simpa [bitLenAux] using h
  | succ f ih =>
    intro n h
    by_cases h0 : n = 0
    · simp [h0, bitLenAux]
    · have hdiv : n / 2 < 2 ^ f := by
        rw [pow_succ] at h
        omega
      have hrec := ih (n / 2) hdiv
      rw [bitLenAux, if_neg h0, pow_succ]
      omega

theorem bitLenAux_le (fuel : Nat) :
    ∀ n k, n < 2 ^ k → bitLenAux fuel n ≤ k := by
  induction fuel with
  | zero => intro n k _; simp [bitLenAux]
  | succ f ih =>
    intro n k h
    by_cases h0 : n = 0
    · simp [h0, bitLenAux]
    · obtain ⟨k', rfl⟩ : ∃ k', k = k' + 1 := by
        rcases k with _ | k'
        · simp at h; omega
        · exact ⟨k', rfl⟩
      have hdiv : n / 2 < 2 ^ k' := by
        rw [pow_succ] at h
        omega
      have hrec := ih (n / 2) k' hdiv
      rw [bitLenAux, if_neg h0]
      omega

theorem bitLenAux_two_pow_sub_one :
    ∀ (k fuel : Nat), k ≤ fuel → bitLenAux fuel (2 ^ k - 1) = k := by
  intro k
  induction k with
  | zero => intro fuel _; simpa using bitLenAux_zero fuel
  | succ k' ih =>
    intro fuel hk
    obtain ⟨f, rfl⟩ : ∃ f, fuel = f + 1 := by
      rcases fuel with _ | f
      · omega
      · exact ⟨f, rfl⟩
    have hne : 2 ^ (k' + 1) - 1 ≠ 0 := by
      have : 2 ≤ 2 ^ (k' + 1) := Nat.one_lt_two_pow_iff.mpr (by omega)
      omega
    have hdiv : (2 ^ (k' + 1) - 1) / 2 = 2 ^ k' - 1 := by
      have h1 : 1 ≤ 2 ^ k' := Nat.one_le_two_pow
      rw [pow_succ]
      omega
    rw [bitLenAux, if_neg hne, hdiv, ih f (by omega)]

theorem pow2ceil_pos (n : Nat) : 0 < pow2ceil n := Nat.pos_pow_of_pos _ (by omega)

theorem pow2ceil_two_pow (k : Nat) (hk : k ≤ 31) : pow2ceil (2 ^ k) = 2 ^ k := by
  have h1 : 1 ≤ 2 ^ k := Nat.one_le_two_pow
  have hlt : 2 ^ k - 1 < 2 ^ 32 := by
    have : 2 ^ k ≤ 2 ^ 31 := Nat.pow_le_pow_right (by omega) hk
    have : (2 : Nat) ^ 31 < 2 ^ 32 := by norm_num
    omega
  unfold pow2ceil jsClz32
  rw [show max (2 ^ k) 1 - 1 = 2 ^ k - 1 by omega, Nat.mod_eq_of_lt hlt,
    bitLenAux_two_pow_sub_one k 64 (by omega)]
  have hb : 32 - (32 - bitLenAux 64 (2 ^ k - 1)) = k := by
    rw [bitLenAux_two_pow_sub_one k 64 (by omega)]; omega
  rw [show (32 - (32 - k)) % 32 = k from by omega]

theorem pow2ceil_ge (n : Nat) (hn : n ≤ 2 ^ 31) : n ≤ pow2ceil n := by
  by_cases h1 : n ≤ 1
  · have := pow2ceil_pos n
    omega
  · have hm : max n 1 - 1 = n - 1 := by omega
    have hlt32 : n - 1 < 2 ^ 32 := by
      have : (2 : Nat) ^ 31 < 2 ^ 32 := by norm_num
      omega
    have hlt64 : n - 1 < 2 ^ 64 := by
      have : (2 : Nat) ^ 32 ≤ 2 ^ 64 := Nat.pow_le_pow_right (by omega) (by omega)
      omega
    have hb := bitLenAux_lt 64 (n - 1) hlt64
    have hble : bitLenAux 64 (n - 1) ≤ 31 := by
      apply bitLenAux_le
      have : (2 : Nat) ^ 31 = 2147483648 := by norm_num
      omega
    unfold pow2ceil jsClz32
    rw [hm, Nat.mod_eq_of_lt hlt32,
      show (32 - (32 - bitLenAux 64 (n - 1))) % 32 = bitLenAux 64 (n - 1) from by omega]
    omega

theorem mask_eq_mod (n k : Nat) : n &&& (2 ^ k - 1) = n % 2 ^ k := by
  apply Nat.eq_of_testBit_eq
  intro i
  rw [Nat.testBit_land, Nat.testBit_two_pow_sub_one, Nat.testBit_mod_two_pow]
  cases Nat.decLt i k <;> simp_all

theorem bucketIdx_two_pow (h : Int) (k : Nat) :
    bucketIdx h (2 ^ k) = h.natAbs % 2 ^ k := by
  rw [bucketIdx, mask_eq_mod]

theorem bucketIdx_lt (h : Int) (len : Nat) (hlen : 0 < len) : bucketIdx h len < len := by
  have := Nat.and_le_right (n := h.natAbs) (m := len - 1)
  unfold bucketIdx
  omega

/-! ## Generic list lemmas -/

theorem find?_eq_head?_filter (p : α → Bool) (l : List α) :
    l.find? p = (l.filter p).head? := by
  induction l with
  | nil => rfl
  | cons a t ih =>
    by_cases h : p a
    · rw [List.find?_cons_of_pos _ h, List.filter_cons_of_pos h, List.head?_cons]
    · rw [List.find?_cons_of_neg _ (by simp [h]), List.filter_cons_of_neg (by simp [h]), ih]

theorem getD_set_self (l : List α) (i : Nat) (b d : α) (h : i < l.length) :
    (l.set i b).getD i d = b := by
  rw [List.getD_eq_getElem?_getD, List.getElem?_set_eq_of_lt b h]
  rfl

theorem getD_set_ne (l : List α) (i j : Nat) (b d : α) (h : i ≠ j) :
    (l.set i b).getD j d = l.getD j d := by
  rw [List.getD_eq_getElem?_getD, List.getElem?_set_ne h, ← List.getD_eq_getElem?_getD]

theorem getD_replicate (n i : Nat) (a d : α) :
    (List.replicate n a).getD i d = if i < n then a else d := by
  rw [List.getD_eq_getElem?_getD, List.getElem?_replicate]
  split <;> rfl

theorem getD_out_of_range (l : List α) (i : Nat) (d : α) (h : l.length ≤ i) :
    l.getD i d = d := by
  rw [List.getD_eq_getElem?_getD, List.getElem?_eq_none h]
  rfl

theorem flatten_replicate_nil (n : Nat) :
    (List.replicate n ([] : List α)).flatten = [] :=
  List.flatten_eq_nil_iff.mpr (fun _ h => (List.eq_of_mem_replicate h))

/-! ## Bucket-scan lemmas -/

theorem bucketGet_eq_find? (eq : K → K → Bool) (key : K) (b : Bucket K T) :
    bucketGet eq key b = (b.find? (fun p => eq key p.1)).map (fun p => p.2) := by
  induction b with
  | nil => rfl
  | cons p rest ih =>
    obtain ⟨k, v⟩ := p
    by_cases h : eq key k
    · simp [bucketGet, h, List.find?_cons_of_pos]
    · simp only [bucketGet, if_neg h, ih]
      rw [List.find?_cons_of_neg _ (by simpa using h)]

theorem bucketGet_eq_head?_filter (eq : K → K → Bool) (key : K) (b : Bucket K T) :
    bucketGet eq key b = ((b.filter (fun p => eq key p.1)).head?).map (fun p => p.2) := by
  rw [bucketGet_eq_find?, find?_eq_head?_filter]

theorem bucketGetKV_eq_find? (eq : K → K → Bool) (key : K) (b : Bucket K T) :
    bucketGetKV eq key b = b.find? (fun p => eq key p.1) := by
  induction b with
  | nil => rfl
  | cons p rest ih =>
    obtain ⟨k, v⟩ := p
    by_cases h : eq key k
    · simp [bucketGetKV, h, List.find?_cons_of_pos]
    · simp only [bucketGetKV, if_neg h, ih]
      rw [List.find?_cons_of_neg _ (by simpa using h)]

theorem bucketSet_grew (eq : K → K → Bool) (key : K) (value : T) (b : Bucket K T) :
    (bucketSet eq key value b).2 = (bucketGet eq key b).isNone := by
  induction b with
  | nil => rfl
  | cons p rest ih =>
    obtain ⟨k, v⟩ := p
    by_cases h : eq key k <;> simp [bucketSet, bucketGet, h, ih]

theorem bucketSet_length (eq : K → K → Bool) (key : K) (value : T) (b : Bucket K T) :
    (bucketSet eq key value b).1.length =
      if (bucketSet eq key value b).2 then b.length + 1 else b.length := by
  induction b with
  | nil => rfl
  | cons p rest ih =>
    obtain ⟨k, v⟩ := p
    by_cases h : eq key k
    · simp [bucketSet, h]
    · simp only [bucketSet, if_neg h, List.length_cons, ih]
      split <;> simp

theorem bucketGet_bucketSet_agree (eq : K → K → Bool) (key key' : K) (value : T)
    (hkk : eq key' key = true) (hagree : ∀ x, eq key' x = eq key x) (b : Bucket K T) :
    bucketGet eq key' (bucketSet eq key value b).1 = some value := by
  induction b with
  | nil => simp [bucketSet, bucketGet, hkk]
  | cons p rest ih =>
    obtain ⟨k, v⟩ := p
    by_cases h : eq key k
    · simp [bucketSet, if_pos h, bucketGet, (hagree k).trans h]
    · have h' : eq key' k = false := by rw [hagree]; simpa using h
      simp [bucketSet, if_neg h, bucketGet, h', ih]

theorem bucketGet_bucketSet_other (eq : K → K → Bool) (key key' : K) (value : T)
    (hnk : eq key' key = false) (hx : ∀ x, eq key x = true → eq key' x = false)
    (b : Bucket K T) :
    bucketGet eq key' (bucketSet eq key value b).1 = bucketGet eq key' b := by
  induction b with
  | nil => simp [bucketSet, bucketGet, hnk]
  | cons p rest ih =>
    obtain ⟨k, v⟩ := p
    by_cases h : eq key k
    · simp [bucketSet, if_pos h, bucketGet, hx k h]
    · simp [bucketSet, if_neg h, bucketGet, ih]

theorem bucketSet_mem_keys (eq : K → K → Bool) (key : K) (value : T) (b : Bucket K T) :
    ∀ p ∈ (bucketSet eq key value b).1, p.1 = key ∨ ∃ w, (p.1, w) ∈ b := by
  induction b with
  | nil => intro p hp; simp [bucketSet] at hp; left; simp [hp]
  | cons q rest ih =>
    obtain ⟨k, v⟩ := q
    intro p hp
    by_cases h : eq key k
    · simp only [bucketSet, if_pos h, List.mem_cons] at hp
      rcases hp with rfl | hp
      · right; exact ⟨v, by simp⟩
      · right; exact ⟨p.2, by simp [hp]⟩
    · simp only [bucketSet, if_neg h, List.mem_cons] at hp
      rcases hp with rfl | hp
      · right; exact ⟨v, by simp⟩
      · rcases ih p hp with h1 | ⟨w, hw⟩
        · exact Or.inl h1
        · exact Or.inr ⟨w, by simp [hw]⟩

theorem bucketRemove_snd (eq : K → K → Bool) (key : K) (b : Bucket K T) :
    (bucketRemove eq key b).2 = bucketGet eq key b := by
  induction b with
  | nil => rfl
  | cons p rest ih =>
    obtain ⟨k, v⟩ := p
    by_cases h : eq key k <;> simp [bucketRemove, bucketGet, h, ih]

theorem bucketRemove_not_found (eq : K → K → Bool) (key : K) (b : Bucket K T)
    (h : bucketGet eq key b = none) : (bucketRemove eq key b).1 = b := by
  induction b with
  | nil => rfl
  | cons p rest ih =>
    obtain ⟨k, v⟩ := p
    by_cases hk : eq key k
    · simp [bucketGet, hk] at h
    · simp only [bucketGet, if_neg hk] at h
      simp [bucketRemove, if_neg hk, ih h]

theorem bucketRemove_sublist (eq : K → K → Bool) (key : K) (b : Bucket K T) :
    (bucketRemove eq key b).1.Sublist b := by
  induction b with
  | nil => simp [bucketRemove]
  | cons p rest ih =>
    obtain ⟨k, v⟩ := p
    by_cases h : eq key k
    · simp only [bucketRemove, if_pos h]
      exact List.sublist_cons_self _ _
    · simp only [bucketRemove, if_neg h]
      exact ih.cons₂ _

theorem bucketRemove_length (eq : K → K → Bool) (key : K) (b : Bucket K T) :
    (bucketRemove eq key b).1.length =
      if (bucketGet eq key b).isSome then b.length - 1 else b.length := by
  induction b with
  | nil => rfl
  | cons p rest ih =>
    obtain ⟨k, v⟩ := p
    by_cases h : eq key k
    · simp [bucketRemove, bucketGet, h]
    · simp only [bucketRemove, if_neg h, bucketGet]
      have hlen := (bucketRemove_sublist eq key rest).length_le
      simp only [List.length_cons, ih]
      split
      · next hs =>
        rcases rest with _ | ⟨q, rest'⟩
        · simp [bucketGet] at hs
        · simp only [List.length_cons]
          omega
      · rfl

theorem bucketGet_bucketRemove_other (eq : K → K → Bool) (key key' : K)
    (hx : ∀ x, eq key x = true → eq key' x = false) (b : Bucket K T) :
    bucketGet eq key' (bucketRemove eq key b).1 = bucketGet eq key' b := by
  induction b with
  | nil => rfl
  | cons p rest ih =>
    obtain ⟨k, v⟩ := p
    by_cases h : eq key k
    · simp [bucketRemove, if_pos h, bucketGet, hx k h]
    · simp [bucketRemove, if_neg h, bucketGet, ih]

/-! ## The resize redistribution loop -/

theorem pushPair_length (hash : K → Int) (final : Nat) (bs : List (Bucket K T)) (p : K × T) :
    (HashMap.pushPair hash final bs p).length = bs.length := by
  simp [HashMap.pushPair]

theorem foldl_pushPair_length (hash : K → Int) (final : Nat) (l : List (K × T)) :
    ∀ bs : List (Bucket K T), (l.foldl (HashMap.pushPair hash final) bs).length = bs.length := by
  induction l with
  | nil => intro bs; rfl
  | cons p rest ih =>
    intro bs
    rw [List.foldl_cons, ih, pushPair_length]

theorem resize_buckets_length (m : HashMap K T) (n : Nat) :
    (m.resize n).buckets.length = pow2ceil n := by
  simp only [HashMap.resize]
  rw [foldl_pushPair_length, List.length_replicate]

theorem resize_count (m : HashMap K T) (n : Nat) : (m.resize n).count = m.count := rfl

theorem resize_hasher (m : HashMap K T) (n : Nat) : (m.resize n).hasher = m.hasher := rfl

theorem foldl_pushPair_getD (hash : K → Int) (final : Nat) (hf : 0 < final)
    (l : List (K × T)) :
    ∀ (bs : List (Bucket K T)), bs.length = final → ∀ i,
      (l.foldl (HashMap.pushPair hash final) bs).getD i [] =
        bs.getD i [] ++ l.filter (fun p => bucketIdx (hash p.1) final == i) := by
  induction l with
  | nil => intro bs _ i; simp
  | cons p rest ih =>
    intro bs hbs i
    rw [List.foldl_cons, ih (HashMap.pushPair hash final bs p) (by rw [pushPair_length, hbs]) i,
      List.filter_cons]
    by_cases hip : bucketIdx (hash p.1) final = i
    · have hlt : bucketIdx (hash p.1) final < bs.length := by
        rw [hbs]; exact bucketIdx_lt _ _ hf
      rw [hip] at hlt
      simp only [HashMap.pushPair, hip]
      rw [getD_set_self _ _ _ _ hlt]
      simp
    · simp only [HashMap.pushPair]
      rw [getD_set_ne _ _ _ _ _ hip]
      simp [hip]

theorem resize_getD (m : HashMap K T) (n : Nat) (i : Nat) :
    (m.resize n).buckets.getD i [] =
      m.buckets.flatten.filter
        (fun p => bucketIdx (m.hasher.hash p.1) (pow2ceil n) == i) := by
  simp only [HashMap.resize]
  rw [foldl_pushPair_getD _ _ (pow2ceil_pos n) _ _ (by simp) i, getD_replicate]
  split <;> rfl

/-! ## The placement invariant -/

theorem placement_empty (hasher : Hasher K) : Placement (HashMap.empty (T := T) hasher) := by
  intro i p hp
  simp only [HashMap.empty, getD_replicate] at hp
  split at hp <;> simp at hp

theorem placement_resize (m : HashMap K T) (n : Nat) : Placement (m.resize n) := by
  intro i p hp
  rw [resize_getD] at hp
  rw [resize_hasher, resize_buckets_length]
  simpa using (List.mem_filter.mp hp).2

theorem placement_write (m : HashMap K T) (key : K) (value : T)
    (hP : Placement m) (hlen : 0 < m.buckets.length) (c : Nat) :
    Placement (⟨m.buckets.set (m.bucketIndexOf key)
        (bucketSet m.hasher.equals key value (m.getBucket key)).1, c, m.hasher⟩ :
      HashMap K T) := by
  intro i p hp
  simp only at hp ⊢
  rw [List.length_set]
  by_cases hij : m.bucketIndexOf key = i
  · subst hij
    have hlt : m.bucketIndexOf key < m.buckets.length := bucketIdx_lt _ _ hlen
    rw [getD_set_self _ _ _ _ hlt] at hp
    rcases bucketSet_mem_keys _ _ _ _ p hp with h1 | ⟨w, hw⟩
    · rw [h1]; rfl
    · exact hP _ (p.1, w) hw
  · rw [getD_set_ne _ _ _ _ _ hij] at hp
    exact hP i p hp

theorem placement_set (m : HashMap K T) (key : K) (value : T)
    (hP : Placement m) (hlen : 0 < m.buckets.length) :
    Placement (m.set key value) := by
  unfold HashMap.set
  dsimp only
  split
  · split
    · exact placement_resize _ _
    · exact placement_write m key value hP hlen _
  · exact placement_write m key value hP hlen _

theorem placement_remove (m : HashMap K T) (key : K) (hP : Placement m) :
    Placement (m.remove key).1 := by
  unfold HashMap.remove
  dsimp only
  split
  · next v heq =>
    intro i p hp
    simp only at hp ⊢
    rw [List.length_set]
    by_cases hij : m.bucketIndexOf key = i
    · subst hij
      have hne : m.getBucket key ≠ [] := by
        intro h0
        rw [h0] at heq
        simp [bucketRemove] at heq
      have hlt : m.bucketIndexOf key < m.buckets.length := by
        by_contra hc
        push_neg at hc
        exact hne (getD_out_of_range _ _ _ hc)
      rw [getD_set_self _ _ _ _ hlt] at hp
      exact hP _ p ((bucketRemove_sublist m.hasher.equals key (m.getBucket key)).subset hp)
    · rw [getD_set_ne _ _ _ _ _ hij] at hp
      exact hP i p hp
  · exact hP

/-! ## Lookup through resize and set -/

theorem filter_flatten_single (p : α → Bool) :
    ∀ (L : List (List α)) (j : Nat), j < L.length →
      (∀ i, i ≠ j → ∀ x ∈ L.getD i [], p x = false) →
      L.flatten.filter p = (L.getD j []).filter p := by
  intro L
  induction L with
  | nil => intro j hj; simp at hj
  | cons b rest ih =>
    intro j hj hx
    cases j with
    | zero =>
      have hrest : rest.flatten.filter p = [] := by
        rw [List.filter_eq_nil_iff]
        intro x hxmem
        obtain ⟨l, hl, hxl⟩ := List.mem_flatten.mp hxmem
        obtain ⟨i, hi, rfl⟩ := List.getElem_of_mem hl
        have hgd : rest[i] = (b :: rest).getD (i + 1) [] := by
          rw [List.getD_eq_getElem?_getD, List.getElem?_cons_succ,
            List.getElem?_eq_getElem hi]
          rfl
        simpa using hx (i + 1) (by omega) x (hgd ▸ hxl)
      simp [List.filter_append, hrest]
    | succ j' =>
      have hb : b.filter p = [] := by
        rw [List.filter_eq_nil_iff]
        intro x hx0
        simpa using hx 0 (by omega) x (by simpa using hx0)
      have hrec := ih j' (by simpa using hj)
        (fun i hi x hxm => hx (i + 1) (by omega) x (by simpa using hxm))
      simp [List.filter_append, hb, hrec]

theorem eqv_agree {H : Hasher K} (hL : LawfulHasher H) {key key' : K}
    (hkk : H.equals key' key = true) :
    ∀ x, H.equals key' x = H.equals key x := by
  intro x
  by_cases h2 : H.equals key x = true
  · rw [h2]
    exact hL.trans _ _ _ hkk h2
  · simp only [Bool.not_eq_true] at h2
    rw [h2]
    by_contra hc
    simp only [Bool.not_eq_false] at hc
    have hsym : H.equals key key' = true := by rw [hL.symm]; exact hkk
    have := hL.trans _ _ _ hsym hc
    simp [this] at h2

theorem not_eqv_excl {H : Hasher K} (hL : LawfulHasher H) {key key' : K}
    (hnk : H.equals key' key = false) :
    ∀ x, H.equals key x = true → H.equals key' x = false := by
  intro x hx
  by_contra hc
  simp only [Bool.not_eq_false] at hc
  have hxk : H.equals x key = true := by rw [hL.symm]; exact hx
  have := hL.trans _ _ _ hc hxk
  simp [this] at hnk

theorem get_resize (m : HashMap K T) (n : Nat) (key : K)
    (hL : LawfulHasher m.hasher) (hP : Placement m) :
    (m.resize n).get key = m.get key := by
  have hf : 0 < pow2ceil n := pow2ceil_pos n
  have hLHS : (m.resize n).get key =
      ((m.buckets.flatten.filter (fun p => m.hasher.equals key p.1)).head?).map
        (fun p => p.2) := by
    rw [HashMap.get, HashMap.getBucket, HashMap.bucketIndexOf, resize_hasher,
      resize_buckets_length, resize_getD, bucketGet_eq_head?_filter,
      List.filter_filter]
    congr 1
    rw [List.filter_congr]
    intro p _
    by_cases hkp : m.hasher.equals key p.1 = true
    · have : m.hasher.hash key = m.hasher.hash p.1 := hL.hash_eq _ _ hkp
      simp [hkp, this]
    · simp only [Bool.not_eq_true] at hkp
      simp [hkp]
  rw [hLHS, HashMap.get, bucketGet_eq_head?_filter]
  rcases Nat.eq_zero_or_pos m.buckets.length with hz | hpos
  · have hnil : m.buckets = [] := List.length_eq_zero.mp hz
    rw [HashMap.getBucket, List.getD_eq_getElem?_getD]
    simp [hnil]
  · have hjlt : m.bucketIndexOf key < m.buckets.length := bucketIdx_lt _ _ hpos
    rw [HashMap.getBucket,
      filter_flatten_single _ m.buckets (m.bucketIndexOf key) hjlt]
    intro i hi x hxmem
    by_contra hc
    simp only [Bool.not_eq_false] at hc
    have hhash : m.hasher.hash key = m.hasher.hash x.1 := hL.hash_eq _ _ hc
    have := hP i x hxmem
    rw [← hhash] at this
    exact hi this.symm

theorem get_write (m : HashMap K T) (key key' : K) (value : T)
    (hL : LawfulHasher m.hasher) (hlen : 0 < m.buckets.length) (c : Nat) :
    (⟨m.buckets.set (m.bucketIndexOf key)
        (bucketSet m.hasher.equals key value (m.getBucket key)).1, c, m.hasher⟩ :
      HashMap K T).get key' =
      if m.hasher.equals key' key then some value else m.get key' := by
  have hlt : bucketIdx (m.hasher.hash key) m.buckets.length < m.buckets.length :=
    bucketIdx_lt _ _ hlen
  simp only [HashMap.get, HashMap.getBucket, HashMap.bucketIndexOf, List.length_set]
  by_cases hkk : m.hasher.equals key' key = true
  · rw [if_pos hkk]
    rw [show m.hasher.hash key' = m.hasher.hash key from hL.hash_eq _ _ hkk]
    rw [getD_set_self _ _ _ _ hlt]
    exact bucketGet_bucketSet_agree _ _ _ _ hkk (eqv_agree hL hkk) _
  · simp only [Bool.not_eq_true] at hkk
    rw [if_neg (show ¬m.hasher.equals key' key = true by simp [hkk])]
    have hx := not_eqv_excl hL hkk
    by_cases hij : bucketIdx (m.hasher.hash key') m.buckets.length
        = bucketIdx (m.hasher.hash key) m.buckets.length
    · rw [hij, getD_set_self _ _ _ _ hlt,
        bucketGet_bucketSet_other _ _ _ _ hkk hx]
    · rw [getD_set_ne _ _ _ _ _ (fun h => hij h.symm)]

theorem get_set (m : HashMap K T) (key key' : K) (value : T)
    (hL : LawfulHasher m.hasher) (hP : Placement m) (hlen : 0 < m.buckets.length) :
    (m.set key value).get key' =
      if m.hasher.equals key' key then some value else m.get key' := by
  unfold HashMap.set
  dsimp only
  split
  · split
    · exact (get_resize
        ⟨m.buckets.set (m.bucketIndexOf key)
          (bucketSet m.hasher.equals key value (m.getBucket key)).1, m.count + 1, m.hasher⟩
        _ key' hL (placement_write m key value hP hlen _)).trans
        (get_write m key key' value hL hlen _)
    · exact get_write m key key' value hL hlen _
  · exact get_write m key key' value hL hlen _

/-! ## Count and bucket-count bookkeeping of set -/

theorem size_set (m : HashMap K T) (key : K) (value : T) :
    (m.set key value).size = if (m.get key).isSome then m.size else m.size + 1 := by
  have hg := bucketSet_grew m.hasher.equals key value (m.getBucket key)
  unfold HashMap.set
  dsimp only
  split
  · next h2 =>
    have hno : (m.get key).isNone = true := hg ▸ h2
    have hnos : (m.get key).isSome = false := by
      rw [Option.isNone_iff_eq_none.mp hno]
      rfl
    split
    · rw [if_neg (by simp [hnos])]
      simp only [HashMap.size, resize_count]
    · rw [if_neg (by simp [hnos])]
      rfl
  · next h2 =>
    simp only [Bool.not_eq_true] at h2
    have hyes : (m.get key).isNone = false := hg ▸ h2
    rw [if_pos (by simp [Option.isSome_iff_ne_none]; intro hc; rw [hc] at hyes; simp at hyes)]
    rfl

theorem set_buckets_length (m : HashMap K T) (key : K) (value : T) (kk : Nat)
    (hk : m.buckets.length = 2 ^ kk) (hkk : kk ≤ 30) :
    (m.set key value).buckets.length =
      if (m.get key).isNone = true ∧ 4 * (m.count + 1) > 3 * m.buckets.length then
        2 * m.buckets.length
      else m.buckets.length := by
  have hg := bucketSet_grew m.hasher.equals key value (m.getBucket key)
  unfold HashMap.set
  dsimp only
  split
  · next h2 =>
    have hno : (m.get key).isNone = true := hg ▸ h2
    split
    · next htrig =>
      rw [List.length_set] at htrig
      rw [resize_buckets_length, List.length_set, hk,
        show 2 * 2 ^ kk = 2 ^ (kk + 1) from by rw [pow_succ]; ring,
        pow2ceil_two_pow (kk + 1) (by omega), if_pos ⟨hno, hk ▸ htrig⟩]
    · next htrig =>
      rw [List.length_set] at htrig
      rw [if_neg (fun hc => htrig hc.2), List.length_set]
  · next h2 =>
    simp only [Bool.not_eq_true] at h2
    have hyes : (m.get key).isNone = false := hg ▸ h2
    rw [if_neg (fun hc => by rw [hyes] at hc; exact Bool.false_ne_true hc.1)]
    exact List.length_set ..

theorem set_hasher (m : HashMap K T) (key : K) (value : T) :
    (m.set key value).hasher = m.hasher := by
  unfold HashMap.set
  dsimp only
  split
  · split
    · rfl
    · rfl
  · rfl

theorem set_buckets_pos (m : HashMap K T) (key : K) (value : T)
    (hlen : 0 < m.buckets.length) : 0 < (m.set key value).buckets.length := by
  unfold HashMap.set
  dsimp only
  split
  · split
    · rw [resize_buckets_length]
      exact pow2ceil_pos _
    · simpa using hlen
  · simpa using hlen

/-! ## Remove lemmas -/

theorem remove_snd (m : HashMap K T) (key : K) : (m.remove key).2 = m.get key := by
  have hr : (bucketRemove m.hasher.equals key (m.getBucket key)).2 = m.get key :=
    bucketRemove_snd m.hasher.equals key (m.getBucket key)
  unfold HashMap.remove
  dsimp only
  split
  · next v heq => exact heq ▸ hr
  · next heq => exact heq ▸ hr

theorem remove_buckets_length (m : HashMap K T) (key : K) :
    (m.remove key).1.buckets.length = m.buckets.length := by
  unfold HashMap.remove
  dsimp only
  split
  · exact List.length_set ..
  · rfl

theorem remove_count (m : HashMap K T) (key : K) :
    (m.remove key).1.count = if (m.get key).isSome then m.count - 1 else m.count := by
  have hr : (bucketRemove m.hasher.equals key (m.getBucket key)).2 = m.get key :=
    bucketRemove_snd m.hasher.equals key (m.getBucket key)
  unfold HashMap.remove
  dsimp only
  split
  · next v heq =>
    have : (m.get key).isSome = true := by rw [← hr, heq]; rfl
    rw [if_pos this]
  · next heq =>
    have : (m.get key).isSome = false := by rw [← hr, heq]; rfl
    rw [if_neg (by simp [this])]

theorem remove_absent (m : HashMap K T) (key : K) (h : m.get key = none) :
    (m.remove key).1 = m := by
  have hr : (bucketRemove m.hasher.equals key (m.getBucket key)).2 = m.get key :=
    bucketRemove_snd m.hasher.equals key (m.getBucket key)
  unfold HashMap.remove
  dsimp only
  split
  · next v heq =>
    rw [heq, h] at hr
    exact absurd hr (by simp)
  · rfl

theorem remove_hasher (m : HashMap K T) (key : K) :
    (m.remove key).1.hasher = m.hasher := by
  unfold HashMap.remove
  dsimp only
  split
  · rfl
  · rfl

theorem get_remove_other (m : HashMap K T) (key key' : K)
    (hL : LawfulHasher m.hasher) (hne : m.hasher.equals key' key = false) :
    (m.remove key).1.get key' = m.get key' := by
  have hx := not_eqv_excl hL hne
  unfold HashMap.remove
  dsimp only
  split
  · next v heq =>
    have hnonempty : m.getBucket key ≠ [] := by
      intro h0
      rw [h0] at heq
      simp [bucketRemove] at heq
    have hlt : bucketIdx (m.hasher.hash key) m.buckets.length < m.buckets.length := by
      by_contra hc
      push_neg at hc
      exact hnonempty (getD_out_of_range _ _ _ hc)
    simp only [HashMap.get, HashMap.getBucket, HashMap.bucketIndexOf, List.length_set]
    by_cases hij : bucketIdx (m.hasher.hash key') m.buckets.length
        = bucketIdx (m.hasher.hash key) m.buckets.length
    · rw [hij, getD_set_self _ _ _ _ hlt]
      exact bucketGet_bucketRemove_other _ _ _ hx _
    · rw [getD_set_ne _ _ _ _ _ (fun h => hij h.symm)]
  · rfl

theorem remove_bucket_sublist (m : HashMap K T) (key : K) :
    ((m.remove key).1.getBucket key).Sublist (m.getBucket key) := by
  unfold HashMap.remove
  dsimp only
  split
  · next v heq =>
    have hnonempty : m.getBucket key ≠ [] := by
      intro h0
      rw [h0] at heq
      simp [bucketRemove] at heq
    have hlt : bucketIdx (m.hasher.hash key) m.buckets.length < m.buckets.length := by
      by_contra hc
      push_neg at hc
      exact hnonempty (getD_out_of_range _ _ _ hc)
    simp only [HashMap.getBucket, HashMap.bucketIndexOf, List.length_set]
    rw [getD_set_self _ _ _ _ hlt]
    exact bucketRemove_sublist _ _ _
  · exact List.Sublist.refl _

/-! ## Sequences of set calls -/

theorem lastVal_acc (eq : K → K → Bool) (k : K) (ops : List (K × T)) :
    ∀ acc : Option T,
      ops.foldl (fun acc p => if eq k p.1 then some p.2 else acc) acc =
        match lastVal eq k ops with
        | some v => some v
        | none => acc := by
  induction ops with
  | nil => intro acc; rfl
  | cons p rest ih =>
    intro acc
    rw [List.foldl_cons, ih]
    cases h' : lastVal eq k rest with
    | some v =>
      rw [show lastVal eq k (p :: rest) = some v from by
        rw [lastVal, List.foldl_cons, ih, h']]
    | none =>
      rw [show lastVal eq k (p :: rest) = if eq k p.1 then some p.2 else none from by
        rw [lastVal, List.foldl_cons, ih, h']]
      by_cases h : eq k p.1 <;> simp [h]

theorem runSets_cons (m : HashMap K T) (p : K × T) (rest : List (K × T)) :
    runSets m (p :: rest) = runSets (m.set p.1 p.2) rest := rfl

theorem get_runSets (ops : List (K × T)) :
    ∀ (m : HashMap K T), LawfulHasher m.hasher → Placement m →
      0 < m.buckets.length → ∀ k : K,
      (runSets m ops).get k =
        match lastVal m.hasher.equals k ops with
        | some v => some v
        | none => m.get k := by
  induction ops with
  | nil => intro m _ _ _ k; rfl
  | cons p rest ih =>
    intro m hL hP hlen k
    rw [runSets_cons]
    have hH : (m.set p.1 p.2).hasher = m.hasher := set_hasher m p.1 p.2
    have hrec := ih (m.set p.1 p.2) (by rw [hH]; exact hL)
      (placement_set m p.1 p.2 hP hlen) (set_buckets_pos m p.1 p.2 hlen) k
    rw [hH] at hrec
    rw [hrec, get_set m p.1 k p.2 hL hP hlen]
    rw [show lastVal m.hasher.equals k (p :: rest) =
        match lastVal m.hasher.equals k rest with
        | some v => some v
        | none => if m.hasher.equals k p.1 then some p.2 else none from by
      rw [lastVal, List.foldl_cons, lastVal_acc]]
    cases h' : lastVal m.hasher.equals k rest with
    | some v => rfl
    | none => by_cases h : m.hasher.equals k p.1 <;> simp [h]

/-! ## Content preservation of resize -/

theorem flatten_set_append (p : α) :
    ∀ (bs : List (List α)) (i : Nat), i < bs.length →
      ((bs.set i (bs.getD i [] ++ [p])).flatten).Perm (bs.flatten ++ [p]) := by
  intro bs
  induction bs with
  | nil => intro i hi; simp at hi
  | cons b rest ih =>
    intro i hi
    cases i with
    | zero =>
      simp only [List.set_cons_zero, List.getD_cons_zero, List.flatten_cons]
      rw [List.append_assoc, List.append_assoc]
      exact List.Perm.append_left b List.perm_append_comm
    | succ i' =>
      simp only [List.set_cons_succ, List.getD_cons_succ, List.flatten_cons]
      rw [List.append_assoc]
      exact List.Perm.append_left b (ih i' (by simpa using hi))

theorem flatten_foldl_pushPair (hash : K → Int) (final : Nat) (hf : 0 < final)
    (l : List (K × T)) :
    ∀ bs : List (Bucket K T), bs.length = final →
      ((l.foldl (HashMap.pushPair hash final) bs).flatten).Perm (bs.flatten ++ l) := by
  induction l with
  | nil => intro bs _; simp
  | cons p rest ih =>
    intro bs hbs
    rw [List.foldl_cons]
    have h1 := ih (HashMap.pushPair hash final bs p) (by rw [pushPair_length, hbs])
    have h2 : ((HashMap.pushPair hash final bs p).flatten).Perm (bs.flatten ++ [p]) := by
      apply flatten_set_append
      rw [hbs]
      exact bucketIdx_lt _ _ hf
    refine h1.trans ?_
    refine (h2.append_right rest).trans ?_
    rw [List.append_assoc, List.singleton_append]

theorem toList_resize_perm (m : HashMap K T) (n : Nat) :
    ((m.resize n).toList).Perm m.toList := by
  have h := flatten_foldl_pushPair m.hasher.hash (pow2ceil n) (pow2ceil_pos n)
    m.buckets.flatten (List.replicate (pow2ceil n) []) (by simp)
  rw [flatten_replicate_nil, List.nil_append] at h
  exact h

/-! ## A concrete lawful hasher for instantiating the theorems -/

theorem natHasher_lawful : LawfulHasher natHasher := by
  refine ⟨?_, ?_, ?_, ?_⟩
  · intro k
    simp [natHasher]
  · intro a b
    simp only [natHasher]
    rcases Nat.decEq a b with h | h
    · simp [Nat.beq_eq, h, Ne.symm h]
    · simp [h]
  · intro a b c h1 h2
    simp only [natHasher, beq_iff_eq] at h1 h2 ⊢
    omega
  · intro a b h
    simp only [natHasher, beq_iff_eq] at h
    simp [natHasher, h]

theorem empty_hasher (hasher : Hasher K) :
    (HashMap.empty (T := T) hasher).hasher = hasher := rfl

theorem defaultHasherNum_lawful : LawfulHasher defaultHasherNum := by
  have hbeq : ∀ x y : Int, (x == y) = (y == x) := by
    intro x y
    by_cases h : x = y
    · rw [h]
    · rw [beq_eq_false_iff_ne.mpr h, beq_eq_false_iff_ne.mpr (Ne.symm h)]
  refine ⟨?_, ?_, ?_, ?_⟩
  · intro k
    cases k <;> simp [defaultHasherNum, objectIs]
  · intro a b
    cases a <;> cases b <;> simp [defaultHasherNum, objectIs, hbeq]
  · intro a b c h1 h2
    cases a <;> cases b <;> cases c <;> simp_all [defaultHasherNum, objectIs]
  · intro a b h
    cases a <;> cases b <;> simp_all [defaultHasherNum, objectIs]

/-! ## Claim theorems -/

/-- C1: for every sequence of set calls followed by a get, the get returns the
most-recently-set value for that key (last-write-wins); a single set on a key
already present (per hasher.equals) overwrites without changing size(), and a
set on an absent key increments size() by one.  Stated for any map whose
hasher obeys the hashing contract and whose pairs sit in their hash-selected
buckets (as every map built by the public operations does). -/
theorem claim_c1 (m : HashMap K T) (hL : LawfulHasher m.hasher)
    (hP : Placement m) (hlen : 0 < m.buckets.length) :
    (∀ (ops : List (K × T)) (k : K),
      (runSets m ops).get k =
        match lastVal m.hasher.equals k ops with
        | some v => some v
        | none => m.get k) ∧
    (∀ (key key' : K) (value : T),
      (m.set key value).get key' =
        if m.hasher.equals key' key then some value else m.get key') ∧
    (∀ (key : K) (value : T),
      (m.set key value).size = if (m.get key).isSome then m.size else m.size + 1) :=
  ⟨fun ops k => get_runSets ops m hL hP hlen k,
   fun key key' value => get_set m key key' value hL hP hlen,
   fun key value => size_set m key value⟩

/-- Witness for C1 at a concrete input: replaying
set(1,10), set(1,20), set(2,30) on an empty map and then reading key 1
yields 20, the most recently set value. -/
theorem claim_c1_witness :
    LawfulHasher (HashMap.empty (T := Nat) natHasher).hasher ∧
    Placement (HashMap.empty (T := Nat) natHasher) ∧
    0 < (HashMap.empty (T := Nat) natHasher).buckets.length ∧
    (runSets (HashMap.empty (T := Nat) natHasher) [(1, 10), (1, 20), (2, 30)]).get 1 =
      some 20 := by
  refine ⟨natHasher_lawful, placement_empty natHasher, by decide, ?_⟩
  have h := (claim_c1 (HashMap.empty (T := Nat) natHasher) natHasher_lawful
    (placement_empty natHasher) (by decide)).1 [(1, 10), (1, 20), (2, 30)] 1
  rw [h]
  decide

/-- C2: a set that grows the entry count doubles the bucket count exactly when
the new count exceeds the 0.75 load threshold, before returning; consequently
an insert on a map satisfying capacity() ≥ size() (as every map reachable by
the public operations does, with a power-of-two bucket count) again satisfies
capacity() ≥ size() afterwards. -/
theorem claim_c2 (m : HashMap K T) (key : K) (value : T) (kk : Nat)
    (hk : m.buckets.length = 2 ^ kk) (hkk : kk ≤ 30)
    (hcap : m.size ≤ m.capacity) :
    ((m.set key value).buckets.length =
      if (m.get key).isNone = true ∧ 4 * (m.count + 1) > 3 * m.buckets.length then
        2 * m.buckets.length
      else m.buckets.length) ∧
    (m.set key value).size ≤ (m.set key value).capacity := by
  refine ⟨set_buckets_length m key value kk hk hkk, ?_⟩
  have hlen1 : 1 ≤ m.buckets.length := hk ▸ Nat.one_le_two_pow
  have hbl := set_buckets_length m key value kk hk hkk
  have hsz := size_set m key value
  simp only [HashMap.size, HashMap.capacity] at hcap hsz ⊢
  rw [hsz, hbl]
  by_cases hs : (m.get key).isSome = true
  · have hno : (m.get key).isNone = false := by
      cases hv : m.get key
      · rw [hv] at hs; simp at hs
      · simp [hv]
    rw [if_pos hs, if_neg (by rw [hno]; simp)]
    omega
  · have hno : (m.get key).isNone = true := by
      cases hv : m.get key
      · simp [hv]
      · rw [hv] at hs; simp at hs
    rw [if_neg hs]
    by_cases htrig : 4 * (m.count + 1) > 3 * m.buckets.length
    · rw [if_pos ⟨hno, htrig⟩]
      omega
    · rw [if_neg (fun hc => htrig hc.2)]
      omega

/-- Witness for C2 at a concrete input: inserting key 5 into an empty map
(8 buckets, size 0 ≤ capacity 6). -/
theorem claim_c2_witness :
    (HashMap.empty (T := Nat) natHasher).buckets.length = 2 ^ 3 ∧ (3 : Nat) ≤ 30 ∧
    (HashMap.empty (T := Nat) natHasher).size ≤ (HashMap.empty (T := Nat) natHasher).capacity ∧
    (((HashMap.empty (T := Nat) natHasher).set 5 7).buckets.length =
      if ((HashMap.empty (T := Nat) natHasher).get 5).isNone = true ∧
          4 * ((HashMap.empty (T := Nat) natHasher).count + 1) >
            3 * (HashMap.empty (T := Nat) natHasher).buckets.length then
        2 * (HashMap.empty (T := Nat) natHasher).buckets.length
      else (HashMap.empty (T := Nat) natHasher).buckets.length) ∧
    ((HashMap.empty (T := Nat) natHasher).set 5 7).size ≤
      ((HashMap.empty (T := Nat) natHasher).set 5 7).capacity := by
  have h := claim_c2 (HashMap.empty (T := Nat) natHasher) 5 7 3 (by decide) (by decide)
    (by decide)
  exact ⟨by decide, by decide, by decide, h.1, h.2⟩

/-- C3: resize is a semantic no-op for content: for every map and every target
bucket count, the multiset of pairs observed by full iteration is the same
before and after a resize (only the order may differ). -/
theorem claim_c3 (m : HashMap K T) (n : Nat) :
    (((m.resize n).toList : List (K × T)) : Multiset (K × T)) =
      ((m.toList : List (K × T)) : Multiset (K × T)) :=
  Multiset.coe_eq_coe.mpr (toList_resize_perm m n)


/-- C4, evaluated at the failing inputs: the claim says withCapacity(n) yields
capacity() ≥ n, but the code resizes to ceil(n * loadThreshold) buckets
(multiplying instead of dividing by the threshold, unlike reserve and
shrinkToFit), so withCapacity(1) has 1 bucket and capacity() = 0 < 1, and
withCapacity(8) has 8 buckets and capacity() = 6 < 8. -/
theorem claim_c4_bug :
    (HashMap.withCapacity (T := Nat) natHasher 1).buckets.length = 1 ∧
    (HashMap.withCapacity (T := Nat) natHasher 1).capacity = 0 ∧
    ¬(1 ≤ (HashMap.withCapacity (T := Nat) natHasher 1).capacity) ∧
    (HashMap.withCapacity (T := Nat) natHasher 8).capacity = 6 ∧
    ¬(8 ≤ (HashMap.withCapacity (T := Nat) natHasher 8).capacity) := by
  refine ⟨?_, ?_, ?_, ?_, ?_⟩ <;> decide

/-- C5: drain yields exactly the stored pairs (each exactly once, in bucket
order), exactly size()-many of them when the count invariant holds, and
leaves an empty map (size 0, no stored pairs) behind. -/
theorem claim_c5 (m : HashMap K T) (hc : CountInv m) :
    (m.drain).1 = m.toList ∧
    (m.drain).1.length = m.size ∧
    (m.drain).2.size = 0 ∧
    (m.drain).2.toList = [] := by
  refine ⟨rfl, hc.symm, rfl, ?_⟩
  show (m.clear).toList = []
  simp only [HashMap.clear, HashMap.toList]
  exact flatten_replicate_nil _

/-- Witness for C5 at a concrete input: a map holding keys 1 and 2. -/
theorem claim_c5_witness :
    CountInv (((HashMap.empty (T := Nat) natHasher).set 1 10).set 2 20) ∧
    ((((HashMap.empty (T := Nat) natHasher).set 1 10).set 2 20).drain).1.length =
      (((HashMap.empty (T := Nat) natHasher).set 1 10).set 2 20).size ∧
    ((((HashMap.empty (T := Nat) natHasher).set 1 10).set 2 20).drain).2.size = 0 := by
  have hc : CountInv (((HashMap.empty (T := Nat) natHasher).set 1 10).set 2 20) := by
    unfold CountInv
    decide
  have h := claim_c5 (((HashMap.empty (T := Nat) natHasher).set 1 10).set 2 20) hc
  exact ⟨hc, h.2.1, h.2.2.1⟩

/-- C6, refuted as stated at a concrete input: the claim says that whenever
shrinkTo does not shrink to the requested target it falls back to shrinkToFit
semantics, but on an empty map with 8 buckets, shrinkTo(100) computes target
134 ≥ 8 buckets and does nothing (8 buckets remain), while shrinkToFit
shrinks to 1 bucket. -/
theorem claim_c6_counterexample :
    ¬((4 * 100 + 2) / 3 ≥ (4 * (HashMap.empty (T := Nat) natHasher).count + 2) / 3 ∧
        (4 * 100 + 2) / 3 < (HashMap.empty (T := Nat) natHasher).buckets.length) ∧
    ((HashMap.empty (T := Nat) natHasher).shrinkTo 100).buckets.length = 8 ∧
    ((HashMap.empty (T := Nat) natHasher).shrinkToFit).buckets.length = 1 ∧
    (HashMap.empty (T := Nat) natHasher).shrinkTo 100 ≠
      (HashMap.empty (T := Nat) natHasher).shrinkToFit :=
  ⟨by decide, by decide, by decide,
   fun h => absurd (congrArg (fun x => x.buckets.length) h) (by decide)⟩

/-- C6 amended: shrinkTo(c) computes the target bucket count
ceil(c / 0.75); it resizes to that target when the target is at least the
minimum the current contents need and below the current bucket count; it
falls back to shrinkToFit when the target is below that minimum; and when the
target is at least the current bucket count it leaves the map unchanged (it
does not fall back to shrinkToFit).  In all cases it never shrinks below
what the current contents require. -/
theorem claim_c6_amended (m : HashMap K T) (c : Nat)
    (hinv : 4 * m.count ≤ 3 * m.buckets.length)
    (hc : c ≤ 2 ^ 28) (hcnt : m.count ≤ 2 ^ 28) :
    ((4 * c + 2) / 3 ≥ (4 * m.count + 2) / 3 ∧ (4 * c + 2) / 3 < m.buckets.length →
        m.shrinkTo c = m.resize ((4 * c + 2) / 3)) ∧
    ((4 * c + 2) / 3 < (4 * m.count + 2) / 3 → m.shrinkTo c = m.shrinkToFit) ∧
    ((4 * c + 2) / 3 ≥ (4 * m.count + 2) / 3 ∧ m.buckets.length ≤ (4 * c + 2) / 3 →
        m.shrinkTo c = m) ∧
    (4 * m.count + 2) / 3 ≤ (m.shrinkTo c).buckets.length := by
  have h28 : (2 : Nat) ^ 28 = 268435456 := by norm_num
  have h31 : (2 : Nat) ^ 31 = 2147483648 := by norm_num
  refine ⟨?_, ?_, ?_, ?_⟩
  · intro hcond
    unfold HashMap.shrinkTo
    rw [if_pos hcond]
  · intro hcond
    unfold HashMap.shrinkTo
    rw [if_neg (fun hcc => by omega), if_pos hcond]
  · intro hcond
    unfold HashMap.shrinkTo
    rw [if_neg (fun hcc => by omega), if_neg (by omega)]
  · unfold HashMap.shrinkTo
    dsimp only
    split
    · next hcond =>
      rw [resize_buckets_length]
      have := pow2ceil_ge ((4 * c + 2) / 3) (by omega)
      omega
    · next hcond =>
      split
      · next hlt =>
        unfold HashMap.shrinkToFit
        dsimp only
        split
        · next hfit =>
          rw [resize_buckets_length]
          have := pow2ceil_ge ((4 * m.count + 2) / 3) (by omega)
          omega
        · next hfit => omega
      · next hlt => omega

/-- Witness for C6 amended at a concrete input: an empty map (8 buckets,
count 0) with requested capacity 3; the target is 4 buckets, which is taken,
and the result never drops below the 0 buckets the contents require. -/
theorem claim_c6_amended_witness :
    4 * (HashMap.empty (T := Nat) natHasher).count ≤
      3 * (HashMap.empty (T := Nat) natHasher).buckets.length ∧
    (3 : Nat) ≤ 2 ^ 28 ∧ (HashMap.empty (T := Nat) natHasher).count ≤ 2 ^ 28 ∧
    ((4 * 3 + 2) / 3 ≥ (4 * (HashMap.empty (T := Nat) natHasher).count + 2) / 3 ∧
        (4 * 3 + 2) / 3 < (HashMap.empty (T := Nat) natHasher).buckets.length →
      (HashMap.empty (T := Nat) natHasher).shrinkTo 3 =
        (HashMap.empty (T := Nat) natHasher).resize ((4 * 3 + 2) / 3)) ∧
    (4 * (HashMap.empty (T := Nat) natHasher).count + 2) / 3 ≤
      ((HashMap.empty (T := Nat) natHasher).shrinkTo 3).buckets.length := by
  have h := claim_c6_amended (HashMap.empty (T := Nat) natHasher) 3 (by decide)
    (by norm_num) (by simp [HashMap.empty])
  exact ⟨by decide, by norm_num, by simp [HashMap.empty], h.1, h.2.2.2⟩


/-- C7: remove on an absent key returns none and leaves the map unchanged;
remove on a present key returns the removed value, decrements size() by one,
keeps the bucket count (no resize), preserves every other key, and keeps the
relative order of the remaining pairs in the bucket (the new bucket is a
sublist of the old one). -/
theorem claim_c7 (m : HashMap K T) (key : K) (hL : LawfulHasher m.hasher) :
    ((m.get key).isNone = true → (m.remove key).1 = m ∧ (m.remove key).2 = none) ∧
    (m.remove key).2 = m.get key ∧
    (m.remove key).1.size = (if (m.get key).isSome then m.size - 1 else m.size) ∧
    (m.remove key).1.buckets.length = m.buckets.length ∧
    (∀ key', m.hasher.equals key' key = false →
      (m.remove key).1.get key' = m.get key') ∧
    ((m.remove key).1.getBucket key).Sublist (m.getBucket key) := by
  refine ⟨?_, remove_snd m key, remove_count m key, remove_buckets_length m key,
    fun key' h => get_remove_other m key key' hL h, remove_bucket_sublist m key⟩
  intro hno
  have h := Option.isNone_iff_eq_none.mp hno
  exact ⟨remove_absent m key h, by rw [remove_snd m key, h]⟩

/-- Witness for C7 at a concrete input: after set(1, 1), removing the absent
key 2 returns none, leaves get(1) = some 1 and size() = 1. -/
theorem claim_c7_witness :
    LawfulHasher ((HashMap.empty (T := Nat) natHasher).set 1 1).hasher ∧
    (((HashMap.empty (T := Nat) natHasher).set 1 1).remove 2).2 = none ∧
    (((HashMap.empty (T := Nat) natHasher).set 1 1).remove 2).1.get 1 = some 1 ∧
    (((HashMap.empty (T := Nat) natHasher).set 1 1).remove 2).1.size = 1 := by
  refine ⟨natHasher_lawful, ?_, ?_, ?_⟩
  · have h := (claim_c7 ((HashMap.empty (T := Nat) natHasher).set 1 1) 2 natHasher_lawful).2.1
    rw [h]
    decide
  · have h := (claim_c7 ((HashMap.empty (T := Nat) natHasher).set 1 1) 2
      natHasher_lawful).2.2.2.2.1 1 (by decide)
    rw [h]
    decide
  · have h := (claim_c7 ((HashMap.empty (T := Nat) natHasher).set 1 1) 2
      natHasher_lawful).2.2.1
    rw [h]
    decide

/-- C8: the bitmask is the mod (bucket counts are powers of two); the pairs of
any map built by the public operations sit exactly in the bucket selected by
hash(key) mod bucket count (the empty map satisfies the placement invariant,
set, remove and resize preserve it), every key present is found in exactly
the one bucket its hash selects, and getKeyValue performs the same scan of
the same bucket as get. -/
theorem claim_c8 (m : HashMap K T) (hL : LawfulHasher m.hasher)
    (hlen : 0 < m.buckets.length) :
    (∀ (h : Int) (k : Nat), bucketIdx h (2 ^ k) = h.natAbs % 2 ^ k) ∧
    (∀ hasher : Hasher K, Placement (HashMap.empty (T := T) hasher)) ∧
    (∀ key value, Placement m → Placement (m.set key value)) ∧
    (∀ key, Placement m → Placement (m.remove key).1) ∧
    (∀ n, Placement (m.resize n)) ∧
    (Placement m → ∀ (key : K) (i : Nat) (p : K × T), p ∈ m.buckets.getD i [] →
      m.hasher.equals key p.1 = true → i = m.bucketIndexOf key) ∧
    (∀ key, m.getKeyValue key =
      (m.getBucket key).find? (fun p => m.hasher.equals key p.1)) := by
  refine ⟨bucketIdx_two_pow, placement_empty,
    fun key value hP => placement_set m key value hP hlen,
    fun key hP => placement_remove m key hP, placement_resize m, ?_,
    fun key => bucketGetKV_eq_find? _ _ _⟩
  intro hP key i p hmem hkey
  have h1 := hP i p hmem
  have h2 : m.hasher.hash key = m.hasher.hash p.1 := hL.hash_eq _ _ hkey
  rw [HashMap.bucketIndexOf, h2]
  exact h1.symm

/-- Witness for C8 at concrete inputs: the bitmask of hash -5 in 8 buckets is
5 mod 8, and a one-insert map satisfies the placement invariant. -/
theorem claim_c8_witness :
    LawfulHasher (HashMap.empty (T := Nat) natHasher).hasher ∧
    0 < (HashMap.empty (T := Nat) natHasher).buckets.length ∧
    bucketIdx (-5) (2 ^ 3) = (-5 : Int).natAbs % 2 ^ 3 ∧
    Placement ((HashMap.empty (T := Nat) natHasher).set 1 2) := by
  refine ⟨natHasher_lawful, by decide, ?_, ?_⟩
  · exact (claim_c8 (HashMap.empty (T := Nat) natHasher) natHasher_lawful (by decide)).1 (-5) 3
  · exact (claim_c8 (HashMap.empty (T := Nat) natHasher) natHasher_lawful
      (by decide)).2.2.1 1 2 (placement_empty natHasher)

/-- C9: entry(key).orInsertWith(fn) on an absent key invokes fn exactly once
(the threaded counter increases by one), with the key as argument, and the
map afterwards contains fn's return value at the key; a second orInsertWith
on the now-present key invokes its callback zero times and changes nothing;
on a present key the callback is never invoked and map and counter are
untouched.  The handle itself is returned. -/
theorem claim_c9 (m : HashMap K T) (key : K) (f : K → T) (s : Nat)
    (hL : LawfulHasher m.hasher) (hP : Placement m) (hlen : 0 < m.buckets.length) :
    (m.get key = none →
      ((m.entry key).orInsertWith (countingFn f) s).2 = s + 1 ∧
      ((m.entry key).orInsertWith (countingFn f) s).1.key = key ∧
      ((m.entry key).orInsertWith (countingFn f) s).1.map.get key = some (f key) ∧
      ∀ (g : K → T) (s' : Nat),
        (((m.entry key).orInsertWith (countingFn f) s).1.orInsertWith (countingFn g) s') =
          (((m.entry key).orInsertWith (countingFn f) s).1, s')) ∧
    (∀ v, m.get key = some v →
      (m.entry key).orInsertWith (countingFn f) s = (m.entry key, s)) := by
  constructor
  · intro habs
    have hmap : ((m.entry key).orInsertWith (countingFn f) s) =
        (⟨m.set key (f key), key⟩, s + 1) := by
      unfold Entry.orInsertWith HashMap.entry
      dsimp only
      rw [habs]
      rfl
    have hsome : (m.set key (f key)).get key = some (f key) := by
      rw [get_set m key key (f key) hL hP hlen, if_pos (hL.refl key)]
    rw [hmap]
    refine ⟨rfl, rfl, hsome, ?_⟩
    intro g s'
    unfold Entry.orInsertWith
    dsimp only
    rw [hsome]
  · intro v hsome
    unfold Entry.orInsertWith HashMap.entry
    dsimp only
    rw [hsome]

/-- Witness for C9 at a concrete input: key 4 absent from the empty map,
fn k = k + 100; one invocation, and the map then holds 104 at key 4. -/
theorem claim_c9_witness :
    LawfulHasher (HashMap.empty (T := Nat) natHasher).hasher ∧
    Placement (HashMap.empty (T := Nat) natHasher) ∧
    0 < (HashMap.empty (T := Nat) natHasher).buckets.length ∧
    (HashMap.empty (T := Nat) natHasher).get 4 = none ∧
    (((HashMap.empty (T := Nat) natHasher).entry 4).orInsertWith
      (countingFn (fun k => k + 100)) 0).2 = 0 + 1 ∧
    (((HashMap.empty (T := Nat) natHasher).entry 4).orInsertWith
      (countingFn (fun k => k + 100)) 0).1.map.get 4 = some 104 := by
  have h := claim_c9 (HashMap.empty (T := Nat) natHasher) 4 (fun k => k + 100) 0
    natHasher_lawful (placement_empty natHasher) (by decide)
  have habs : (HashMap.empty (T := Nat) natHasher).get 4 = none := by decide
  have h1 := h.1 habs
  exact ⟨natHasher_lawful, placement_empty natHasher, by decide, habs, h1.1, h1.2.2.1⟩

/-- C10: under the default hasher, 0 and -0 stringify identically (so they
produce the identical hash string and hash), but Object.is distinguishes
them, so they are two distinct keys that never overwrite each other, in
either insertion order; and NaN is a usable key equal to itself. -/
theorem claim_c10 :
    (JSNum.toStr (JSNum.int 0) = JSNum.toStr JSNum.negZero) ∧
    (defaultHasherNum.hash (JSNum.int 0) = defaultHasherNum.hash JSNum.negZero) ∧
    (objectIs (JSNum.int 0) JSNum.negZero = false ∧
      objectIs JSNum.negZero (JSNum.int 0) = false) ∧
    (objectIs JSNum.nan JSNum.nan = true) ∧
    (∀ w1 w2 : Int,
      (((HashMap.empty (T := Int) defaultHasherNum).set JSNum.negZero w1).set
          (JSNum.int 0) w2).get JSNum.negZero = some w1 ∧
      (((HashMap.empty (T := Int) defaultHasherNum).set JSNum.negZero w1).set
          (JSNum.int 0) w2).get (JSNum.int 0) = some w2 ∧
      (((HashMap.empty (T := Int) defaultHasherNum).set JSNum.negZero w1).set
          (JSNum.int 0) w2).size = 2 ∧
      (((HashMap.empty (T := Int) defaultHasherNum).set (JSNum.int 0) w2).set
          JSNum.negZero w1).get (JSNum.int 0) = some w2 ∧
      (((HashMap.empty (T := Int) defaultHasherNum).set (JSNum.int 0) w2).set
          JSNum.negZero w1).get JSNum.negZero = some w1) ∧
    (∀ w : Int,
      ((HashMap.empty (T := Int) defaultHasherNum).set JSNum.nan w).get JSNum.nan =
        some w) := by
  have hL0 : LawfulHasher (HashMap.empty (T := Int) defaultHasherNum).hasher :=
    defaultHasherNum_lawful
  have hP0 : Placement (HashMap.empty (T := Int) defaultHasherNum) :=
    placement_empty defaultHasherNum
  have hlen0 : 0 < (HashMap.empty (T := Int) defaultHasherNum).buckets.length := by decide
  refine ⟨by decide, by decide, by decide, by decide, ?_, ?_⟩
  · intro w1 w2
    have gsA := fun (a b : JSNum) (w : Int) =>
      get_set (HashMap.empty (T := Int) defaultHasherNum) a b w hL0 hP0 hlen0
    have hL1 : LawfulHasher
        (((HashMap.empty (T := Int) defaultHasherNum).set JSNum.negZero w1)).hasher := by
      rw [set_hasher, empty_hasher]
      exact defaultHasherNum_lawful
    have hP1 := placement_set (HashMap.empty (T := Int) defaultHasherNum)
      JSNum.negZero w1 hP0 hlen0
    have hlen1 := set_buckets_pos (HashMap.empty (T := Int) defaultHasherNum)
      JSNum.negZero w1 hlen0
    have hL2 : LawfulHasher
        (((HashMap.empty (T := Int) defaultHasherNum).set (JSNum.int 0) w2)).hasher := by
      rw [set_hasher, empty_hasher]
      exact defaultHasherNum_lawful
    have hP2 := placement_set (HashMap.empty (T := Int) defaultHasherNum)
      (JSNum.int 0) w2 hP0 hlen0
    have hlen2 := set_buckets_pos (HashMap.empty (T := Int) defaultHasherNum)
      (JSNum.int 0) w2 hlen0
    have e1 : defaultHasherNum.equals JSNum.negZero (JSNum.int 0) = false := by decide
    have e2 : defaultHasherNum.equals (JSNum.int 0) JSNum.negZero = false := by decide
    have e3 : defaultHasherNum.equals JSNum.negZero JSNum.negZero = true := by decide
    have e4 : defaultHasherNum.equals (JSNum.int 0) (JSNum.int 0) = true := by decide
    have g0a : (HashMap.empty (T := Int) defaultHasherNum).get JSNum.negZero = none := by
      decide
    have g0b : (HashMap.empty (T := Int) defaultHasherNum).get (JSNum.int 0) = none := by
      decide
    refine ⟨?_, ?_, ?_, ?_, ?_⟩
    · rw [get_set _ (JSNum.int 0) JSNum.negZero w2 hL1 hP1 hlen1, set_hasher,
        empty_hasher, e1]
      simp only [Bool.false_eq_true, if_false]
      rw [gsA JSNum.negZero JSNum.negZero w1, empty_hasher, e3, if_pos rfl]
    · rw [get_set _ (JSNum.int 0) (JSNum.int 0) w2 hL1 hP1 hlen1, set_hasher,
        empty_hasher, e4, if_pos rfl]
    · rw [size_set _ (JSNum.int 0) w2, gsA JSNum.negZero (JSNum.int 0) w1,
        empty_hasher, e2]
      simp only [Bool.false_eq_true, if_false, g0b, Option.isSome_none]
      rw [size_set _ JSNum.negZero w1, g0a]
      simp only [Option.isSome_none, Bool.false_eq_true, if_false]
      rfl
    · rw [get_set _ JSNum.negZero (JSNum.int 0) w1 hL2 hP2 hlen2, set_hasher,
        empty_hasher, e2]
      simp only [Bool.false_eq_true, if_false]
      rw [gsA (JSNum.int 0) (JSNum.int 0) w2, empty_hasher, e4, if_pos rfl]
    · rw [get_set _ JSNum.negZero JSNum.negZero w1 hL2 hP2 hlen2, set_hasher,
        empty_hasher, e3, if_pos rfl]
  · intro w
    have e5 : defaultHasherNum.equals JSNum.nan JSNum.nan = true := by decide
    rw [get_set _ JSNum.nan JSNum.nan w hL0 hP0 hlen0, empty_hasher, e5, if_pos rfl]

end HashMapSpec
